import Mathlib

/-!
Shallow embedding of a warehouse stock management and packing program
(file src/code.py). The program keeps per-product FIFO queues in a
defaultdict of deques, an alert log bounded to 3 entries, and an archive
of packed orders. We model the Python dict as an association list that
preserves insertion order, the deques as lists, and the defaultdict
read-creates-entry behaviour with an explicit touch operation.
-/

/-- Python ASCII whitespace characters, as stripped by str.strip and int. -/
def pyWs (c : Char) : Bool :=
  c = ' ' || c = '\t' || c = '\n' || c = '\r' || c = '\x0b' || c = '\x0c'

/-- Remove leading and trailing whitespace from a character list (str.strip). -/
def trimWs (l : List Char) : List Char :=
  ((l.dropWhile pyWs).reverse.dropWhile pyWs).reverse

/-- Model of p.strip().upper() applied to each token. -/
def clean (s : String) : String :=
  ⟨(trimWs s.data).map Char.toUpper⟩

/-- Model of Python str.split on a comma: n separators yield n+1 pieces,
empty pieces included. -/
def splitComma : List Char → List (List Char)
  | [] => [[]]
  | c :: cs =>
    if c = ',' then [] :: splitComma cs
    else
      match splitComma cs with
      | [] => [[c]]
      | t :: ts => (c :: t) :: ts

/-- Token list produced from a raw comma separated string: split on commas,
then strip and uppercase each piece. Used by ajouter_lot and preparer_colis. -/
def tokensOf (s : String) : List String :=
  (splitComma s.data).map (fun l => clean ⟨l⟩)

/-- Format check of ajouter_lot: length at least 2 and first character
alphabetic. -/
def formatOk (s : String) : Bool :=
  decide (2 ≤ s.length) &&
    (match s.data with
     | c :: _ => c.isAlpha
     | [] => false)

/-- Value of a decimal digit character. -/
def digitVal (c : Char) : Nat := c.toNat - '0'.toNat

/-- Continuation of the digit run of Python int: digits, with single
underscores allowed between digits; the flag records that the previous
character was an underscore (which must be followed by a digit). -/
def digitsRest (acc : Nat) (afterUnd : Bool) : List Char → Option Nat
  | [] => if afterUnd then none else some acc
  | c :: cs =>
    if c.isDigit then digitsRest (acc * 10 + digitVal c) false cs
    else if c = '_' && !afterUnd then digitsRest acc true cs
    else none

/-- Digit run of Python int: nonempty, leading digit, single underscores
allowed between digits. -/
def digitsPy : List Char → Option Nat
  | [] => none
  | c :: cs => if c.isDigit then digitsRest (digitVal c) false cs else none

/-- Sign and digit run of Python int, applied after whitespace stripping. -/
def pyIntCore : List Char → Option Int
  | [] => none
  | c :: rest =>
    if c = '+' then (digitsPy rest).map (fun n => (n : Int))
    else if c = '-' then (digitsPy rest).map (fun n => -(n : Int))
    else (digitsPy (c :: rest)).map (fun n => (n : Int))

/-- Model of Python int(s) on a string: strip whitespace, optional sign,
then a digit run. Returns none where Python raises ValueError. -/
def pyInt (s : String) : Option Int :=
  pyIntCore (trimWs s.data)

/-- Volume of a product code in preparer_colis: int(id_produit[1:]),
defaulting to 0 on ValueError. -/
def parseVol (id : String) : Int :=
  (pyInt ⟨id.data.drop 1⟩).getD 0

/-- An item of a packed order: product code and derived volume. -/
structure Item where
  id : String
  vol : Int
deriving Repr, DecidableEq

/-- The stock mapping: an association list from product code to FIFO queue,
in key insertion order, as a Python dict of deques. -/
abbrev Stock := List (String × List String)

/-- Lookup in the stock mapping without creating an entry. -/
def lookupS : Stock → String → Option (List String)
  | [], _ => none
  | (a, v) :: rest, k => if a = k then some v else lookupS rest k

/-- Model of a defaultdict read self.stock[k] in a context where only the
length is used: if the key is absent it is created with an empty queue. -/
def touch (s : Stock) (k : String) : Stock :=
  match lookupS s k with
  | some _ => s
  | none => s ++ [(k, [])]

/-- Model of self.stock[k].append(k): append one unit to the FIFO queue of
k, creating the queue if absent. -/
def appendUnit : Stock → String → Stock
  | [], k => [(k, [k])]
  | (a, v) :: rest, k =>
    if a = k then (a, v ++ [k]) :: rest else (a, v) :: appendUnit rest k

/-- Model of self.stock[k].popleft() on a present, nonempty queue: drop the
head of the FIFO queue of k. -/
def popUnit : Stock → String → Stock
  | [], _ => []
  | (a, v) :: rest, k =>
    if a = k then (a, v.drop 1) :: rest else (a, v) :: popUnit rest k

/-- Quantity of a code: length of its FIFO queue, 0 when the key is absent. -/
def qtyS (s : Stock) (k : String) : Nat :=
  ((lookupS s k).getD []).length

/-- Model of Python list.remove: drop the first occurrence of k. -/
def removeFirst : List String → String → List String
  | [], _ => []
  | x :: xs, k => if x = k then xs else x :: removeFirst xs k

/-- The warehouse state: stock mapping, alert log, archive of packed orders. -/
structure Entrepot where
  stock : Stock
  log_alertes : List String
  liste_colis : List (List Item)
deriving Repr, DecidableEq

/-- Alert threshold: alert when quantity is strictly below 2. -/
def seuil_min : Nat := 2

/-- The empty warehouse state, before the default stock is loaded. -/
def Entrepot.empty : Entrepot := ⟨[], [], []⟩

/-- Model of Entrepot.verifier_et_nettoyer_alerte: read the quantity
through the defaultdict (which creates a missing entry), then remove the
alert when the code is logged and the quantity reached the threshold. -/
def verifier_et_nettoyer_alerte (st : Entrepot) (id : String) : Entrepot :=
  let stock1 := touch st.stock id
  let quantite := qtyS stock1 id
  if id ∈ st.log_alertes then
    if seuil_min ≤ quantite then
      { st with stock := stock1, log_alertes := removeFirst st.log_alertes id }
    else
      { st with stock := stock1 }
  else
    { st with stock := stock1 }

/-- Body of the ajouter_lot loop for one cleaned token: on a well formed
token append a unit and run the alert resolution check, otherwise skip. -/
def addToken (st : Entrepot) (id : String) : Entrepot :=
  if formatOk id then
    verifier_et_nettoyer_alerte { st with stock := appendUnit st.stock id } id
  else
    st

/-- Model of Entrepot.ajouter_lot: split, clean, and process each token. -/
def ajouter_lot (st : Entrepot) (chaine : String) : Entrepot :=
  (tokensOf chaine).foldl addToken st

/-- Model of Entrepot.enregistrer_alerte: read the quantity through the
defaultdict (creating a missing entry), then append the code to the alert
log when the stock is low, the code is not yet logged, and the log has a
free slot. -/
def enregistrer_alerte (st : Entrepot) (id : String) : Entrepot :=
  let stock1 := touch st.stock id
  let st1 : Entrepot := { st with stock := stock1 }
  if seuil_min ≤ qtyS stock1 id then st1
  else if id ∈ st1.log_alertes then st1
  else if st1.log_alertes.length < 3 then
    { st1 with log_alertes := st1.log_alertes ++ [id] }
  else
    st1

/-- The default stock loaded by Entrepot.initialiser_stock_defaut. -/
def Entrepot.init : Entrepot :=
  ajouter_lot Entrepot.empty "A3, A3, B5, B5, C1, C1, A2, A2"

/-- Stable descending insertion of an item by volume: the new item goes
after every already placed item of greater or equal volume. -/
def insDesc (x : Item) : List Item → List Item
  | [] => [x]
  | y :: ys => if y.vol < x.vol then x :: y :: ys else y :: insDesc x ys

/-- Model of contenu_colis.sort(key vol, reverse): the stable sort of the
items by volume descending. -/
def sortVolDesc (l : List Item) : List Item :=
  l.foldl (fun acc x => insDesc x acc) []

/-- Accumulator of the preparer_colis loop: items collected so far, the
warehouse state, the tokens passed to enregistrer_alerte, and the tokens
that produced a backorder notice. -/
structure PackAcc where
  contenu : List Item
  ent : Entrepot
  alertes : List String
  ruptures : List String
deriving Repr, DecidableEq

/-- Body of the preparer_colis loop for one cleaned token: skip blanks;
otherwise pop a unit and record the item when available, else record a
backorder; in both nonblank cases run enregistrer_alerte afterwards. -/
def packStep (acc : PackAcc) (id : String) : PackAcc :=
  if id = "" then acc
  else
    let avail :=
      match lookupS acc.ent.stock id with
      | some v => !v.isEmpty
      | none => false
    if avail then
      let volume := parseVol id
      let ent1 : Entrepot := { acc.ent with stock := popUnit acc.ent.stock id }
      { contenu := acc.contenu ++ [⟨id, volume⟩]
        ent := enregistrer_alerte ent1 id
        alertes := acc.alertes ++ [id]
        ruptures := acc.ruptures }
    else
      { contenu := acc.contenu
        ent := enregistrer_alerte acc.ent id
        alertes := acc.alertes ++ [id]
        ruptures := acc.ruptures ++ [id] }

/-- The full run of the preparer_colis loop over the cleaned tokens. -/
def packRun (st : Entrepot) (chaine : String) : PackAcc :=
  (tokensOf chaine).foldl packStep ⟨[], st, [], []⟩

/-- Model of Conditionnement.preparer_colis: run the loop, sort the items
by volume descending, and archive the packed order when nonempty. -/
def preparer_colis (st : Entrepot) (chaine : String) : Entrepot :=
  let a := packRun st chaine
  let contenu := sortVolDesc a.contenu
  if contenu.isEmpty then a.ent
  else { a.ent with liste_colis := a.ent.liste_colis ++ [contenu] }

/-- Reachable warehouse states: the empty state, and every state obtained
by the operations the program can perform (adding a batch, packing an
order, or a direct low stock alert registration). -/
inductive Reachable : Entrepot → Prop
  | empty : Reachable Entrepot.empty
  | add (st : Entrepot) (s : String) : Reachable st → Reachable (ajouter_lot st s)
  | pack (st : Entrepot) (s : String) : Reachable st → Reachable (preparer_colis st s)
  | alert (st : Entrepot) (s : String) : Reachable st → Reachable (enregistrer_alerte st s)

/-! ### Lemmas about the stock mapping -/

theorem lookupS_append (s t : Stock) (k : String) :
    lookupS (s ++ t) k =
      match lookupS s k with
      | some v => some v
      | none => lookupS t k := by
  induction s with
  | nil => simp [lookupS]
  | cons p rest ih =>
    obtain ⟨a, v⟩ := p
    by_cases h : a = k <;> simp [lookupS, h, ih]

theorem lookupS_touch_of_none (s : Stock) (k : String) (h : lookupS s k = none) :
    lookupS (touch s k) k = some [] := by
  simp [touch, h, lookupS_append, lookupS]

theorem touch_of_some (s : Stock) (k : String) (v : List String)
    (h : lookupS s k = some v) : touch s k = s := by
  simp [touch, h]

theorem qtyS_touch (s : Stock) (k k' : String) :
    qtyS (touch s k) k' = qtyS s k' := by
  unfold touch
  cases h : lookupS s k with
  | some v => rfl
  | none =>
    unfold qtyS
    rw [lookupS_append]
    cases h' : lookupS s k' with
    | some v => simp
    | none =>
      by_cases hk : k = k' <;> simp [lookupS, hk]

theorem lookupS_appendUnit_self (s : Stock) (k : String) :
    lookupS (appendUnit s k) k = some (((lookupS s k).getD []) ++ [k]) := by
  induction s with
  | nil => simp [appendUnit, lookupS]
  | cons p rest ih =>
    obtain ⟨a, v⟩ := p
    by_cases h : a = k <;> simp [appendUnit, lookupS, h, ih]

theorem lookupS_appendUnit_ne (s : Stock) (k k' : String) (h : k' ≠ k) :
    lookupS (appendUnit s k) k' = lookupS s k' := by
  induction s with
  | nil => simp [appendUnit, lookupS, Ne.symm h]
  | cons p rest ih =>
    obtain ⟨a, v⟩ := p
    by_cases ha : a = k
    · subst ha
      have e1 : appendUnit ((a, v) :: rest) a = (a, v ++ [a]) :: rest := by
        simp [appendUnit]
      rw [e1]
      simp [lookupS, Ne.symm h]
    · have e1 : appendUnit ((a, v) :: rest) k = (a, v) :: appendUnit rest k := by
        simp [appendUnit, ha]
      rw [e1]
      by_cases ha' : a = k' <;> simp [lookupS, ha', ih]

theorem qtyS_appendUnit_self (s : Stock) (k : String) :
    qtyS (appendUnit s k) k = qtyS s k + 1 := by
  simp [qtyS, lookupS_appendUnit_self]

theorem qtyS_appendUnit_ne (s : Stock) (k k' : String) (h : k' ≠ k) :
    qtyS (appendUnit s k) k' = qtyS s k' := by
  simp [qtyS, lookupS_appendUnit_ne s k k' h]

theorem lookupS_popUnit_self (s : Stock) (k : String) :
    lookupS (popUnit s k) k = (lookupS s k).map (List.drop 1) := by
  induction s with
  | nil => simp [popUnit, lookupS]
  | cons p rest ih =>
    obtain ⟨a, v⟩ := p
    by_cases h : a = k <;> simp [popUnit, lookupS, h, ih]

theorem lookupS_popUnit_ne (s : Stock) (k k' : String) (h : k' ≠ k) :
    lookupS (popUnit s k) k' = lookupS s k' := by
  induction s with
  | nil => simp [popUnit, lookupS]
  | cons p rest ih =>
    obtain ⟨a, v⟩ := p
    by_cases ha : a = k
    · subst ha
      have e1 : popUnit ((a, v) :: rest) a = (a, v.drop 1) :: rest := by
        simp [popUnit]
      rw [e1]
      simp [lookupS, Ne.symm h]
    · have e1 : popUnit ((a, v) :: rest) k = (a, v) :: popUnit rest k := by
        simp [popUnit, ha]
      rw [e1]
      by_cases ha' : a = k' <;> simp [lookupS, ha', ih]

theorem qtyS_popUnit_le (s : Stock) (k k' : String) :
    qtyS (popUnit s k) k' ≤ qtyS s k' := by
  by_cases h : k' = k
  · subst h
    unfold qtyS
    rw [lookupS_popUnit_self]
    cases lookupS s k' with
    | none => simp
    | some v =>
      have hd : (v.drop 1).length ≤ v.length := by
        rw [List.length_drop]
        omega
      simpa using hd
  · rw [qtyS, lookupS_popUnit_ne s k k' h]
    rfl

/-! ### Lemmas about removeFirst (Python list.remove) -/

theorem mem_removeFirst (l : List String) (k x : String)
    (h : x ∈ removeFirst l k) : x ∈ l := by
  induction l with
  | nil => simpa [removeFirst] using h
  | cons y ys ih =>
    by_cases hy : y = k
    · simp only [removeFirst, if_pos hy] at h
      exact List.mem_cons_of_mem y h
    · simp only [removeFirst, if_neg hy, List.mem_cons] at h
      rcases h with h | h
      · exact h ▸ List.mem_cons_self y ys
      · exact List.mem_cons_of_mem y (ih h)

theorem length_removeFirst_le (l : List String) (k : String) :
    (removeFirst l k).length ≤ l.length := by
  induction l with
  | nil => simp [removeFirst]
  | cons y ys ih =>
    by_cases hy : y = k
    · simp only [removeFirst, if_pos hy, List.length_cons]
      omega
    · simp only [removeFirst, if_neg hy, List.length_cons]
      omega

theorem nodup_removeFirst (l : List String) (k : String) (h : l.Nodup) :
    (removeFirst l k).Nodup := by
  induction l with
  | nil => simpa [removeFirst] using h
  | cons y ys ih =>
    rcases List.nodup_cons.mp h with ⟨hy, hys⟩
    by_cases hyk : y = k
    · simpa [removeFirst, hyk] using hys
    · simp only [removeFirst, if_neg hyk]
      exact List.nodup_cons.mpr ⟨fun hmem => hy (mem_removeFirst ys k y hmem), ih hys⟩

theorem not_mem_removeFirst_self (l : List String) (k : String) (h : l.Nodup) :
    k ∉ removeFirst l k := by
  induction l with
  | nil => simp [removeFirst]
  | cons y ys ih =>
    rcases List.nodup_cons.mp h with ⟨hy, hys⟩
    by_cases hyk : y = k
    · subst hyk
      simpa [removeFirst] using hy
    · simp only [removeFirst, if_neg hyk, List.mem_cons]
      rintro (rfl | hmem)
      · exact hyk rfl
      · exact ih hys hmem

theorem removeFirst_of_not_mem (l : List String) (k : String) (h : k ∉ l) :
    removeFirst l k = l := by
  induction l with
  | nil => rfl
  | cons y ys ih =>
    have hy : ¬ y = k := fun e => h (e ▸ List.mem_cons_self y ys)
    have hys : k ∉ ys := fun m => h (List.mem_cons_of_mem y m)
    simp [removeFirst, hy, ih hys]

/-! ### Characterization of the two alert operations -/

theorem verifier_stock (st : Entrepot) (id : String) :
    (verifier_et_nettoyer_alerte st id).stock = touch st.stock id := by
  unfold verifier_et_nettoyer_alerte
  by_cases h1 : id ∈ st.log_alertes
  · by_cases h2 : seuil_min ≤ qtyS (touch st.stock id) id <;> simp [h1, h2]
  · simp [h1]

theorem verifier_colis (st : Entrepot) (id : String) :
    (verifier_et_nettoyer_alerte st id).liste_colis = st.liste_colis := by
  unfold verifier_et_nettoyer_alerte
  by_cases h1 : id ∈ st.log_alertes
  · by_cases h2 : seuil_min ≤ qtyS (touch st.stock id) id <;> simp [h1, h2]
  · simp [h1]

theorem verifier_log (st : Entrepot) (id : String) :
    (verifier_et_nettoyer_alerte st id).log_alertes =
      if id ∈ st.log_alertes ∧ seuil_min ≤ qtyS st.stock id
      then removeFirst st.log_alertes id
      else st.log_alertes := by
  unfold verifier_et_nettoyer_alerte
  by_cases h1 : id ∈ st.log_alertes
  · by_cases h2 : seuil_min ≤ qtyS st.stock id
    · simp [h1, h2, qtyS_touch]
    · simp [h1, h2, qtyS_touch]
  · simp [h1, qtyS_touch]

theorem enregistrer_stock (st : Entrepot) (id : String) :
    (enregistrer_alerte st id).stock = touch st.stock id := by
  unfold enregistrer_alerte
  by_cases h1 : seuil_min ≤ qtyS (touch st.stock id) id
  · simp [h1]
  · by_cases h2 : id ∈ st.log_alertes
    · simp [h1, h2]
    · by_cases h3 : st.log_alertes.length < 3 <;> simp [h1, h2, h3]

theorem enregistrer_colis (st : Entrepot) (id : String) :
    (enregistrer_alerte st id).liste_colis = st.liste_colis := by
  unfold enregistrer_alerte
  by_cases h1 : seuil_min ≤ qtyS (touch st.stock id) id
  · simp [h1]
  · by_cases h2 : id ∈ st.log_alertes
    · simp [h1, h2]
    · by_cases h3 : st.log_alertes.length < 3 <;> simp [h1, h2, h3]

theorem enregistrer_log (st : Entrepot) (id : String) :
    (enregistrer_alerte st id).log_alertes =
      if qtyS st.stock id < seuil_min ∧ id ∉ st.log_alertes ∧
          st.log_alertes.length < 3
      then st.log_alertes ++ [id]
      else st.log_alertes := by
  unfold enregistrer_alerte
  by_cases h1 : seuil_min ≤ qtyS st.stock id
  · simp [qtyS_touch, h1, Nat.not_lt_of_le h1]
  · have h1' : qtyS st.stock id < seuil_min := Nat.lt_of_not_le h1
    by_cases h2 : id ∈ st.log_alertes
    · simp [qtyS_touch, h1, h1', h2]
    · by_cases h3 : st.log_alertes.length < 3 <;>
        simp [qtyS_touch, h1, h1', h2, h3]

/-! ### The reachable state invariant -/

/-- Joint invariant of the warehouse state: the alert log has no
duplicates, holds at most 3 entries, and every logged code has quantity
strictly below the threshold. -/
def EntInv (st : Entrepot) : Prop :=
  st.log_alertes.Nodup ∧ st.log_alertes.length ≤ 3 ∧
    ∀ id ∈ st.log_alertes, qtyS st.stock id < seuil_min

theorem foldl_preserve {α β : Type _} (P : α → Prop) (f : α → β → α)
    (h : ∀ a b, P a → P (f a b)) :
    ∀ (l : List β) (a : α), P a → P (List.foldl f a l) := by
  intro l
  induction l with
  | nil => intro a ha; simpa using ha
  | cons b bs ih =>
    intro a ha
    simpa using ih (f a b) (h a b ha)

theorem EntInv_enregistrer (st : Entrepot) (id : String) (h : EntInv st) :
    EntInv (enregistrer_alerte st id) := by
  obtain ⟨hnd, hlen, hlow⟩ := h
  refine ⟨?_, ?_, ?_⟩ <;>
    rw [enregistrer_log] <;>
    try rw [enregistrer_stock]
  · split
    · next hc =>
      simp only [List.nodup_append, List.nodup_cons, List.nodup_nil]
      exact ⟨hnd, by simp, by simpa [List.disjoint_singleton] using hc.2.1⟩
    · exact hnd
  · split
    · next hc =>
      simp only [List.length_append, List.length_singleton]
      omega
    · exact hlen
  · split
    · next hc =>
      intro k hk
      rw [qtyS_touch]
      rcases List.mem_append.mp hk with hk | hk
      · exact hlow k hk
      · rcases List.mem_singleton.mp hk with rfl
        exact hc.1
    · intro k hk
      rw [qtyS_touch]
      exact hlow k hk

theorem EntInv_verifier (st : Entrepot) (id : String) (h : EntInv st) :
    EntInv (verifier_et_nettoyer_alerte st id) := by
  obtain ⟨hnd, hlen, hlow⟩ := h
  refine ⟨?_, ?_, ?_⟩ <;>
    rw [verifier_log] <;>
    try rw [verifier_stock]
  · split
    · exact nodup_removeFirst _ _ hnd
    · exact hnd
  · split
    · exact Nat.le_trans (length_removeFirst_le _ _) hlen
    · exact hlen
  · split
    · intro k hk
      rw [qtyS_touch]
      exact hlow k (mem_removeFirst _ _ _ hk)
    · intro k hk
      rw [qtyS_touch]
      exact hlow k hk

theorem EntInv_addToken (st : Entrepot) (id : String) (h : EntInv st) :
    EntInv (addToken st id) := by
  obtain ⟨hnd, hlen, hlow⟩ := h
  unfold addToken
  split
  · set st1 : Entrepot := { st with stock := appendUnit st.stock id } with hst1
    refine ⟨?_, ?_, ?_⟩ <;>
      rw [verifier_log] <;>
      try rw [verifier_stock]
    · split
      · exact nodup_removeFirst _ _ hnd
      · exact hnd
    · split
      · exact Nat.le_trans (length_removeFirst_le _ _) hlen
      · exact hlen
    · split
      · next hc =>
        intro k hk
        rw [qtyS_touch]
        have hkmem : k ∈ st.log_alertes := mem_removeFirst _ _ _ hk
        have hkne : k ≠ id := by
          rintro rfl
          exact not_mem_removeFirst_self _ _ hnd hk
        rw [hst1]
        simp only []
        rw [qtyS_appendUnit_ne st.stock id k hkne]
        exact hlow k hkmem
      · next hc =>
        intro k hk
        rw [qtyS_touch]
        by_cases hkid : k = id
        · subst hkid
          by_cases hmem : k ∈ st1.log_alertes
          · have : ¬ seuil_min ≤ qtyS st1.stock k := fun hge => hc ⟨hmem, hge⟩
            exact Nat.lt_of_not_le this
          · exact absurd hk hmem
        · rw [hst1]
          simp only []
          rw [qtyS_appendUnit_ne st.stock id k hkid]
          exact hlow k hk
  · exact ⟨hnd, hlen, hlow⟩

theorem EntInv_pop (st : Entrepot) (id : String) (h : EntInv st) :
    EntInv { st with stock := popUnit st.stock id } := by
  obtain ⟨hnd, hlen, hlow⟩ := h
  refine ⟨hnd, hlen, ?_⟩
  intro k hk
  exact Nat.lt_of_le_of_lt (qtyS_popUnit_le st.stock id k) (hlow k hk)

theorem EntInv_packStep (acc : PackAcc) (id : String) (h : EntInv acc.ent) :
    EntInv (packStep acc id).ent := by
  unfold packStep
  by_cases hid : id = ""
  · simpa [hid] using h
  · rw [if_neg hid]
    cases hl : lookupS acc.ent.stock id with
    | none =>
      simp only [hl]
      exact EntInv_enregistrer _ _ h
    | some v =>
      by_cases hv : v.isEmpty
      · simp only [hl, hv]
        exact EntInv_enregistrer _ _ h
      · simp only [hl, hv]
        exact EntInv_enregistrer _ _ (EntInv_pop acc.ent id h)

theorem EntInv_liste_colis (st : Entrepot) (l : List (List Item)) (h : EntInv st) :
    EntInv { st with liste_colis := l } := h

theorem EntInv_ajouter_lot (st : Entrepot) (s : String) (h : EntInv st) :
    EntInv (ajouter_lot st s) :=
  foldl_preserve EntInv addToken EntInv_addToken (tokensOf s) st h

theorem EntInv_preparer_colis (st : Entrepot) (s : String) (h : EntInv st) :
    EntInv (preparer_colis st s) := by
  have hrun : EntInv (packRun st s).ent :=
    foldl_preserve (fun a => EntInv a.ent) packStep EntInv_packStep (tokensOf s) ⟨[], st, [], []⟩ h
  unfold preparer_colis
  by_cases hc : (sortVolDesc (packRun st s).contenu).isEmpty
  · simp only [hc, if_true]
    exact hrun
  · simp only [hc, if_false]
    exact EntInv_liste_colis _ _ hrun

theorem reachable_inv (st : Entrepot) (h : Reachable st) : EntInv st := by
  induction h with
  | empty => exact ⟨by simp [Entrepot.empty], by simp [Entrepot.empty], by simp [Entrepot.empty]⟩
  | add st s _ ih => exact EntInv_ajouter_lot st s ih
  | pack st s _ ih => exact EntInv_preparer_colis st s ih
  | alert st s _ ih => exact EntInv_enregistrer st s ih

/-! ### Lemmas about the packing loop -/

/-- Availability test of preparer_colis: the code is a key of the stock
mapping and its queue is nonempty. -/
def availB (st : Entrepot) (id : String) : Bool :=
  match lookupS st.stock id with
  | some v => !v.isEmpty
  | none => false

theorem packStep_eq (acc : PackAcc) (id : String) :
    packStep acc id =
      if id = "" then acc
      else if availB acc.ent id then
        { contenu := acc.contenu ++ [⟨id, parseVol id⟩]
          ent := enregistrer_alerte { acc.ent with stock := popUnit acc.ent.stock id } id
          alertes := acc.alertes ++ [id]
          ruptures := acc.ruptures }
      else
        { contenu := acc.contenu
          ent := enregistrer_alerte acc.ent id
          alertes := acc.alertes ++ [id]
          ruptures := acc.ruptures ++ [id] } := by
  unfold packStep availB
  by_cases hid : id = ""
  · simp [hid]
  · cases hl : lookupS acc.ent.stock id with
    | none => simp [hid, hl]
    | some v => by_cases hv : v.isEmpty <;> simp [hid, hl, hv]

theorem foldl_packStep_colis (ts : List String) :
    ∀ acc : PackAcc,
      (List.foldl packStep acc ts).ent.liste_colis = acc.ent.liste_colis := by
  induction ts with
  | nil => intro acc; rfl
  | cons t ts ih =>
    intro acc
    rw [List.foldl_cons, ih]
    rw [packStep_eq]
    by_cases hid : t = ""
    · simp [hid]
    · by_cases ha : availB acc.ent t <;> simp [hid, ha, enregistrer_colis]

theorem foldl_packStep_alertes (ts : List String) :
    ∀ acc : PackAcc,
      (List.foldl packStep acc ts).alertes =
        acc.alertes ++ ts.filter (fun t => !(t == "")) := by
  induction ts with
  | nil => intro acc; simp
  | cons t ts ih =>
    intro acc
    rw [List.foldl_cons, ih]
    rw [packStep_eq]
    by_cases hid : t = ""
    · simp [hid]
    · by_cases ha : availB acc.ent t <;> simp [hid, ha]

theorem foldl_packStep_contenu_nil (ts : List String) :
    ∀ acc : PackAcc,
      (List.foldl packStep acc ts).contenu = [] →
        acc.contenu = [] ∧
        (List.foldl packStep acc ts).ruptures =
          acc.ruptures ++ ts.filter (fun t => !(t == "")) := by
  induction ts with
  | nil =>
    intro acc h
    exact ⟨h, by simp⟩
  | cons t ts ih =>
    intro acc h
    rw [List.foldl_cons] at h ⊢
    by_cases hid : t = ""
    · have hstep : packStep acc t = acc := by rw [packStep_eq, if_pos hid]
      rw [hstep] at h ⊢
      obtain ⟨h1, h2⟩ := ih acc h
      refine ⟨h1, ?_⟩
      rw [h2]
      simp [hid]
    · by_cases ha : availB acc.ent t
      · have hstep : (packStep acc t).contenu = acc.contenu ++ [⟨t, parseVol t⟩] := by
          rw [packStep_eq, if_neg hid, if_pos ha]
        obtain ⟨h1, _⟩ := ih (packStep acc t) h
        rw [hstep] at h1
        simp at h1
      · have hstep : packStep acc t =
            { contenu := acc.contenu
              ent := enregistrer_alerte acc.ent t
              alertes := acc.alertes ++ [t]
              ruptures := acc.ruptures ++ [t] } := by
          rw [packStep_eq, if_neg hid, if_neg ha]
        rw [hstep] at h ⊢
        obtain ⟨h1, h2⟩ := ih _ h
        refine ⟨h1, ?_⟩
        rw [h2]
        simp [hid]

/-! ### Lemmas about the stable descending sort -/

/-- Descending order on items by volume. -/
def volGE (a b : Item) : Prop := b.vol ≤ a.vol

theorem insDesc_perm (x : Item) (l : List Item) :
    List.Perm (insDesc x l) (x :: l) := by
  induction l with
  | nil => simp [insDesc]
  | cons y ys ih =>
    by_cases h : y.vol < x.vol
    · simp [insDesc, h]
    · simp only [insDesc, if_neg h]
      exact List.Perm.trans (List.Perm.cons y ih) (List.Perm.swap x y ys)

theorem mem_insDesc (x z : Item) (l : List Item) :
    z ∈ insDesc x l ↔ z = x ∨ z ∈ l := by
  rw [(insDesc_perm x l).mem_iff]
  simp

theorem pairwise_insDesc (x : Item) (l : List Item)
    (h : List.Pairwise volGE l) : List.Pairwise volGE (insDesc x l) := by
  induction l with
  | nil => simp [insDesc, List.pairwise_singleton]
  | cons y ys ih =>
    rcases List.pairwise_cons.mp h with ⟨hy, hys⟩
    by_cases hxy : y.vol < x.vol
    · simp only [insDesc, if_pos hxy]
      refine List.pairwise_cons.mpr ⟨?_, h⟩
      intro z hz
      rcases List.mem_cons.mp hz with rfl | hz
      · exact Int.le_of_lt hxy
      · exact Int.le_trans (hy z hz) (Int.le_of_lt hxy)
    · simp only [insDesc, if_neg hxy]
      refine List.pairwise_cons.mpr ⟨?_, ih hys⟩
      intro z hz
      rcases (mem_insDesc x z ys).mp hz with rfl | hz
      · exact Int.not_lt.mp hxy
      · exact hy z hz

theorem foldl_insDesc_perm (l : List Item) :
    ∀ acc : List Item,
      List.Perm (List.foldl (fun acc x => insDesc x acc) acc l) (acc ++ l) := by
  induction l with
  | nil => intro acc; simp
  | cons x xs ih =>
    intro acc
    rw [List.foldl_cons]
    refine List.Perm.trans (ih (insDesc x acc)) ?_
    have h1 : List.Perm (insDesc x acc ++ xs) ((x :: acc) ++ xs) :=
      List.Perm.append_right xs (insDesc_perm x acc)
    refine List.Perm.trans h1 ?_
    simpa using List.perm_middle.symm

theorem sortVolDesc_perm (l : List Item) : List.Perm (sortVolDesc l) l := by
  simpa using foldl_insDesc_perm l []

theorem sortVolDesc_pairwise (l : List Item) :
    List.Pairwise volGE (sortVolDesc l) := by
  unfold sortVolDesc
  have aux : ∀ (l acc : List Item), List.Pairwise volGE acc →
      List.Pairwise volGE (List.foldl (fun acc x => insDesc x acc) acc l) := by
    intro l
    induction l with
    | nil => intro acc h; simpa using h
    | cons x xs ih =>
      intro acc h
      rw [List.foldl_cons]
      exact ih (insDesc x acc) (pairwise_insDesc x acc h)
  exact aux l [] (by simp)

theorem filter_eq_nil_of_lt (v : Int) (l : List Item)
    (h : ∀ y ∈ l, y.vol < v) :
    l.filter (fun y => decide (y.vol = v)) = [] := by
  induction l with
  | nil => rfl
  | cons y ys ih =>
    have hy : ¬ y.vol = v := Int.ne_of_lt (h y (List.mem_cons_self y ys))
    simp only [List.filter_cons, decide_eq_true_eq]
    rw [if_neg hy]
    exact ih (fun z hz => h z (List.mem_cons_of_mem y hz))

theorem filter_insDesc (v : Int) (x : Item) (l : List Item)
    (h : List.Pairwise volGE l) :
    (insDesc x l).filter (fun y => decide (y.vol = v)) =
      l.filter (fun y => decide (y.vol = v)) ++
        (if x.vol = v then [x] else []) := by
  induction l with
  | nil =>
    by_cases hx : x.vol = v <;> simp [insDesc, hx]
  | cons y ys ih =>
    rcases List.pairwise_cons.mp h with ⟨hy, hys⟩
    by_cases hxy : y.vol < x.vol
    · simp only [insDesc, if_pos hxy]
      by_cases hx : x.vol = v
      · have hyv : ¬ y.vol = v := by omega
        have hznil : List.filter (fun z => decide (z.vol = v)) ys = [] := by
          refine filter_eq_nil_of_lt v ys ?_
          intro z hz
          have hzy := hy z hz
          unfold volGE at hzy
          omega
        simp [List.filter_cons, hx, hyv, hznil]
      · simp [List.filter_cons, hx]
    · simp only [insDesc, if_neg hxy]
      rw [List.filter_cons, List.filter_cons]
      by_cases hyv : y.vol = v
      · rw [ih hys]
        simp [hyv]
      · simp only [decide_eq_true_eq, if_neg hyv]
        exact ih hys

theorem sortVolDesc_filter (v : Int) (l : List Item) :
    (sortVolDesc l).filter (fun y => decide (y.vol = v)) =
      l.filter (fun y => decide (y.vol = v)) := by
  unfold sortVolDesc
  have aux : ∀ (l acc : List Item), List.Pairwise volGE acc →
      (List.foldl (fun acc x => insDesc x acc) acc l).filter
          (fun y => decide (y.vol = v)) =
        acc.filter (fun y => decide (y.vol = v)) ++
          l.filter (fun y => decide (y.vol = v)) := by
    intro l
    induction l with
    | nil => intro acc h; simp
    | cons x xs ih =>
      intro acc h
      rw [List.foldl_cons, ih (insDesc x acc) (pairwise_insDesc x acc h)]
      rw [filter_insDesc v x acc h]
      rw [List.filter_cons]
      by_cases hx : x.vol = v <;> simp [hx]
  simpa using aux l [] (by simp)

/-! ### Lemmas about ajouter_lot -/

theorem removeFirst_sublist (l : List String) (k : String) :
    List.Sublist (removeFirst l k) l := by
  induction l with
  | nil => simp [removeFirst]
  | cons y ys ih =>
    by_cases hy : y = k
    · rw [removeFirst, if_pos hy]
      exact List.sublist_cons_self y ys
    · rw [removeFirst, if_neg hy]
      exact List.Sublist.cons₂ y ih

theorem addToken_log_sublist (st : Entrepot) (id : String) :
    List.Sublist (addToken st id).log_alertes st.log_alertes := by
  unfold addToken
  split
  · rw [verifier_log]
    split
    · exact removeFirst_sublist _ _
    · exact List.Sublist.refl _
  · exact List.Sublist.refl _

theorem foldl_addToken_log_sublist (ts : List String) :
    ∀ st : Entrepot,
      List.Sublist (List.foldl addToken st ts).log_alertes st.log_alertes := by
  induction ts with
  | nil => intro st; exact List.Sublist.refl _
  | cons t ts ih =>
    intro st
    rw [List.foldl_cons]
    exact List.Sublist.trans (ih (addToken st t)) (addToken_log_sublist st t)

theorem ajouter_lot_log_sublist (st : Entrepot) (s : String) :
    List.Sublist (ajouter_lot st s).log_alertes st.log_alertes :=
  foldl_addToken_log_sublist (tokensOf s) st

theorem addToken_not_ok (st : Entrepot) (id : String) (h : ¬ formatOk id) :
    addToken st id = st := by
  unfold addToken
  rw [if_neg h]

theorem addToken_qty_self (st : Entrepot) (id : String) (h : formatOk id) :
    qtyS (addToken st id).stock id = qtyS st.stock id + 1 := by
  unfold addToken
  rw [if_pos h, verifier_stock, qtyS_touch]
  exact qtyS_appendUnit_self st.stock id

theorem addToken_qty_ne (st : Entrepot) (id k : String) (h : k ≠ id) :
    qtyS (addToken st id).stock k = qtyS st.stock k := by
  unfold addToken
  split
  · rw [verifier_stock, qtyS_touch]
    exact qtyS_appendUnit_ne st.stock id k h
  · rfl

theorem verifier_qty (st : Entrepot) (id k : String) :
    qtyS (verifier_et_nettoyer_alerte st id).stock k = qtyS st.stock k := by
  rw [verifier_stock, qtyS_touch]

/-! ### Exception sensitive variants of the operations

The Python operations contain three primitives that can raise exceptions:
int on a string (caught by the try block of preparer_colis), deque.popleft
on an empty deque, and list.remove on an absent element. The variants
below return none exactly where an uncaught exception would abort the
Python call; proving them equal to some of the plain operations shows the
guards in the code make the operations total. -/

/-- Fallible model of deque.popleft: none when the key is absent or the
queue is empty. -/
def popUnitE : Stock → String → Option Stock
  | [], _ => none
  | (a, v) :: rest, k =>
    if a = k then
      match v with
      | [] => none
      | _ :: vs => some ((a, vs) :: rest)
    else (popUnitE rest k).map (fun r => (a, v) :: r)

/-- Fallible model of list.remove: none when the element is absent. -/
def removeFirstE : List String → String → Option (List String)
  | [], _ => none
  | x :: xs, k =>
    if x = k then some xs else (removeFirstE xs k).map (fun r => x :: r)

/-- Exception sensitive verifier_et_nettoyer_alerte. -/
def verifierE (st : Entrepot) (id : String) : Option Entrepot :=
  let stock1 := touch st.stock id
  let quantite := qtyS stock1 id
  if id ∈ st.log_alertes then
    if seuil_min ≤ quantite then
      (removeFirstE st.log_alertes id).map
        (fun l => { st with stock := stock1, log_alertes := l })
    else some { st with stock := stock1 }
  else some { st with stock := stock1 }

/-- Exception sensitive body of the ajouter_lot loop. -/
def addTokenE (st : Entrepot) (id : String) : Option Entrepot :=
  if formatOk id then
    verifierE { st with stock := appendUnit st.stock id } id
  else some st

/-- Fold in the Option monad: none propagates, as an uncaught exception
aborts the surrounding loop. -/
def optFold {α β : Type _} (F : α → β → Option α) : α → List β → Option α
  | a, [] => some a
  | a, b :: bs =>
    match F a b with
    | some a1 => optFold F a1 bs
    | none => none

/-- Exception sensitive ajouter_lot. -/
def ajouter_lotE (st : Entrepot) (chaine : String) : Option Entrepot :=
  optFold addTokenE st (tokensOf chaine)

/-- Exception sensitive body of the preparer_colis loop. Parsing of the
volume stays total because the source wraps int in a try block. -/
def packStepE (acc : PackAcc) (id : String) : Option PackAcc :=
  if id = "" then some acc
  else
    let avail :=
      match lookupS acc.ent.stock id with
      | some v => !v.isEmpty
      | none => false
    if avail then
      let volume := parseVol id
      (popUnitE acc.ent.stock id).map (fun s1 =>
        { contenu := acc.contenu ++ [⟨id, volume⟩]
          ent := enregistrer_alerte { acc.ent with stock := s1 } id
          alertes := acc.alertes ++ [id]
          ruptures := acc.ruptures })
    else
      some { acc with
        ent := enregistrer_alerte acc.ent id
        alertes := acc.alertes ++ [id]
        ruptures := acc.ruptures ++ [id] }

/-- Exception sensitive preparer_colis. -/
def preparer_colisE (st : Entrepot) (chaine : String) : Option Entrepot :=
  (optFold packStepE ⟨[], st, [], []⟩ (tokensOf chaine)).map (fun a =>
    let contenu := sortVolDesc a.contenu
    if contenu.isEmpty then a.ent
    else { a.ent with liste_colis := a.ent.liste_colis ++ [contenu] })

theorem removeFirstE_eq (l : List String) (k : String) (h : k ∈ l) :
    removeFirstE l k = some (removeFirst l k) := by
  induction l with
  | nil => cases h
  | cons y ys ih =>
    by_cases hy : y = k
    · rw [removeFirstE, if_pos hy, removeFirst, if_pos hy]
    · have hk : k ∈ ys := by
        rcases List.mem_cons.mp h with rfl | hk
        · exact absurd rfl hy
        · exact hk
      rw [removeFirstE, if_neg hy, removeFirst, if_neg hy, ih hk]
      rfl

theorem popUnitE_eq (s : Stock) (k : String) (v : List String)
    (hv : lookupS s k = some v) (hne : v ≠ []) :
    popUnitE s k = some (popUnit s k) := by
  induction s with
  | nil => cases hv
  | cons p rest ih =>
    obtain ⟨a, w⟩ := p
    by_cases ha : a = k
    · rw [lookupS, if_pos ha] at hv
      injection hv with hv
      subst hv
      cases w with
      | nil => exact absurd rfl hne
      | cons w0 ws =>
        rw [popUnitE, if_pos ha, popUnit, if_pos ha]
        rfl
    · rw [lookupS, if_neg ha] at hv
      simp [popUnitE, popUnit, ha, ih hv]

theorem verifierE_eq (st : Entrepot) (id : String) :
    verifierE st id = some (verifier_et_nettoyer_alerte st id) := by
  unfold verifierE verifier_et_nettoyer_alerte
  by_cases h1 : id ∈ st.log_alertes
  · by_cases h2 : seuil_min ≤ qtyS (touch st.stock id) id
    · simp only [h1, h2, if_true, if_pos]
      rw [removeFirstE_eq st.log_alertes id h1]
      rfl
    · simp [h1, h2]
  · simp [h1]

theorem addTokenE_eq (st : Entrepot) (id : String) :
    addTokenE st id = some (addToken st id) := by
  unfold addTokenE addToken
  split
  · exact verifierE_eq _ _
  · rfl

theorem optFold_eq {α β : Type _} (F : α → β → Option α) (f : α → β → α)
    (h : ∀ a b, F a b = some (f a b)) :
    ∀ (l : List β) (a : α), optFold F a l = some (List.foldl f a l) := by
  intro l
  induction l with
  | nil => intro a; rfl
  | cons b bs ih =>
    intro a
    rw [optFold, h a b, List.foldl_cons]
    exact ih (f a b)

theorem ajouter_lotE_eq (st : Entrepot) (chaine : String) :
    ajouter_lotE st chaine = some (ajouter_lot st chaine) :=
  optFold_eq addTokenE addToken addTokenE_eq (tokensOf chaine) st

theorem packStepE_eq (acc : PackAcc) (id : String) :
    packStepE acc id = some (packStep acc id) := by
  unfold packStepE packStep
  by_cases hid : id = ""
  · simp [hid]
  · rw [if_neg hid, if_neg hid]
    cases hl : lookupS acc.ent.stock id with
    | none => simp [hl]
    | some v =>
      cases v with
      | nil => simp [hl]
      | cons v0 vs =>
        have hne : (v0 :: vs) ≠ [] := by simp
        simp only [hl, List.isEmpty_cons, Bool.not_false, if_true]
        rw [popUnitE_eq acc.ent.stock id (v0 :: vs) hl hne]
        rfl

theorem preparer_colisE_eq (st : Entrepot) (chaine : String) :
    preparer_colisE st chaine = some (preparer_colis st chaine) := by
  unfold preparer_colisE preparer_colis packRun
  rw [optFold_eq packStepE packStep packStepE_eq (tokensOf chaine) ⟨[], st, [], []⟩]
  rfl

/-! ### Display renders -/

/-- Lexicographic comparison of keys, as Python compares strings. -/
def lexLe : List Char → List Char → Bool
  | [], _ => true
  | _ :: _, [] => false
  | a :: as, b :: bs =>
    if a.toNat < b.toNat then true
    else if b.toNat < a.toNat then false
    else lexLe as bs

/-- Insertion into a key sorted association list. -/
def insSorted (x : String × List String) :
    List (String × List String) → List (String × List String)
  | [] => [x]
  | y :: ys => if lexLe x.1.data y.1.data then x :: y :: ys else y :: insSorted x ys

/-- Sort of the stock items by key, as sorted(self.stock.items()). -/
def sortAssoc (l : Stock) : Stock := l.foldr insSorted []

/-- Render of afficher_inventaire: one line per product in sorted key
order, with the low stock marker; the print framing is omitted as pure
output. -/
def afficher_inventaire (st : Entrepot) : List String :=
  (sortAssoc st.stock).map (fun p =>
    "Produit : " ++ p.1 ++ " | Quantité : " ++ toString p.2.length ++
      (if p.2.length < seuil_min then " (BAS)" else ""))

/-- Render of afficher_colis: each archived order rendered in reverse of
pack order, one bracketed line per article. -/
def afficher_colis (st : Entrepot) : List (List String) :=
  st.liste_colis.map (fun colis =>
    colis.reverse.map (fun a => "|  [" ++ a.id ++ "]  |"))

theorem insSorted_length (x : String × List String)
    (l : List (String × List String)) :
    (insSorted x l).length = l.length + 1 := by
  induction l with
  | nil => rfl
  | cons y ys ih =>
    by_cases h : lexLe x.1.data y.1.data
    · simp [insSorted, h]
    · simp [insSorted, h, ih]

theorem sortAssoc_length (l : Stock) : (sortAssoc l).length = l.length := by
  unfold sortAssoc
  induction l with
  | nil => rfl
  | cons x xs ih => simp [List.foldr_cons, insSorted_length, ih]

theorem afficher_inventaire_length (st : Entrepot) :
    (afficher_inventaire st).length = st.stock.length := by
  unfold afficher_inventaire
  rw [List.length_map]
  exact sortAssoc_length st.stock

theorem afficher_colis_length (st : Entrepot) :
    (afficher_colis st).length = st.liste_colis.length := by
  unfold afficher_colis
  rw [List.length_map]

/-! ### Lemmas about the volume parse -/

/-- Decimal value of a digit list. -/
def decVal (ds : List Char) : Nat :=
  ds.foldl (fun a c => a * 10 + digitVal c) 0

theorem isDigit_not_pyWs (c : Char) (h : c.isDigit = true) : pyWs c = false := by
  cases hpw : pyWs c
  · rfl
  · exfalso
    unfold pyWs at hpw
    simp only [Bool.or_eq_true, decide_eq_true_eq] at hpw
    rcases hpw with ((((rfl | rfl) | rfl) | rfl) | rfl) | rfl <;>
      exact absurd h (by decide)

theorem dropWhile_eq_self_of_false {p : Char → Bool} (l : List Char)
    (h : ∀ c ∈ l, p c = false) : l.dropWhile p = l := by
  cases l with
  | nil => rfl
  | cons c cs =>
    rw [List.dropWhile_cons, h c (List.mem_cons_self c cs)]
    simp

theorem trimWs_eq_self (l : List Char) (h : ∀ c ∈ l, pyWs c = false) :
    trimWs l = l := by
  unfold trimWs
  rw [dropWhile_eq_self_of_false l h]
  rw [dropWhile_eq_self_of_false l.reverse
    (fun c hc => h c (List.mem_reverse.mp hc))]
  exact List.reverse_reverse l

theorem digitsRest_all_digits (ds : List Char) :
    ∀ acc : Nat, (∀ c ∈ ds, c.isDigit = true) →
      digitsRest acc false ds =
        some (ds.foldl (fun a c => a * 10 + digitVal c) acc) := by
  induction ds with
  | nil => intro acc _; rfl
  | cons c cs ih =>
    intro acc h
    have hc : c.isDigit = true := h c (List.mem_cons_self c cs)
    rw [digitsRest, if_pos hc, List.foldl_cons]
    exact ih (acc * 10 + digitVal c) (fun d hd => h d (List.mem_cons_of_mem c hd))

theorem digitsPy_all_digits (ds : List Char) (hne : ds ≠ [])
    (h : ∀ c ∈ ds, c.isDigit = true) :
    digitsPy ds = some (decVal ds) := by
  cases ds with
  | nil => exact absurd rfl hne
  | cons c cs =>
    have hc : c.isDigit = true := h c (List.mem_cons_self c cs)
    rw [digitsPy, if_pos hc]
    rw [digitsRest_all_digits cs (digitVal c)
      (fun d hd => h d (List.mem_cons_of_mem c hd))]
    unfold decVal
    rw [List.foldl_cons]
    norm_num

theorem pyInt_all_digits (ds : List Char) (hne : ds ≠ [])
    (h : ∀ c ∈ ds, c.isDigit = true) :
    pyInt ⟨ds⟩ = some ((decVal ds : Nat) : Int) := by
  have htrim : trimWs ds = ds :=
    trimWs_eq_self ds (fun c hc => isDigit_not_pyWs c (h c hc))
  unfold pyInt
  rw [htrim]
  cases ds with
  | nil => exact absurd rfl hne
  | cons c cs =>
    have hc : c.isDigit = true := h c (List.mem_cons_self c cs)
    have hp : ¬ c = '+' := by
      intro e
      rw [e] at hc
      exact absurd hc (by decide)
    have hm : ¬ c = '-' := by
      intro e
      rw [e] at hc
      exact absurd hc (by decide)
    rw [pyIntCore, if_neg hp, if_neg hm, digitsPy_all_digits (c :: cs) (by simp) h]
    rfl

/-! ### Archive behaviour of preparer_colis -/

theorem packRun_colis (st : Entrepot) (ch : String) :
    (packRun st ch).ent.liste_colis = st.liste_colis :=
  foldl_packStep_colis (tokensOf ch) ⟨[], st, [], []⟩

theorem sortVolDesc_eq_nil_iff (l : List Item) : sortVolDesc l = [] ↔ l = [] := by
  constructor
  · intro h
    have hl := (sortVolDesc_perm l).length_eq
    rw [h] at hl
    exact List.eq_nil_of_length_eq_zero hl.symm
  · intro h
    rw [h]
    rfl

theorem preparer_colis_archive (st : Entrepot) (ch : String) :
    ((packRun st ch).contenu = [] →
        preparer_colis st ch = (packRun st ch).ent) ∧
    ((packRun st ch).contenu ≠ [] →
        (preparer_colis st ch).liste_colis =
          st.liste_colis ++ [sortVolDesc (packRun st ch).contenu]) := by
  constructor
  · intro h
    unfold preparer_colis
    have hs : sortVolDesc (packRun st ch).contenu = [] :=
      (sortVolDesc_eq_nil_iff _).mpr h
    simp [hs]
  · intro h
    unfold preparer_colis
    have hs : sortVolDesc (packRun st ch).contenu ≠ [] :=
      fun he => h ((sortVolDesc_eq_nil_iff _).mp he)
    have hE : (sortVolDesc (packRun st ch).contenu).isEmpty = false := by
      cases hv : sortVolDesc (packRun st ch).contenu with
      | nil => exact absurd hv hs
      | cons a as => rfl
    simp only [hE, Bool.false_eq_true, if_false]
    rw [packRun_colis]

/-! ### Claim theorems -/

/-- C1: In every reachable state the alert log holds each product code at
most once and never more than 3 entries; enregistrer_alerte changes the
log only by appending the code at the end, and only when its quantity is
strictly below the threshold, it is not already present, and the log has
fewer than 3 entries; and a call arriving while the log holds 3 entries
leaves the log unchanged (the alert is dropped, not queued). -/
theorem claim_C1 :
    (∀ st : Entrepot, Reachable st →
        st.log_alertes.Nodup ∧ st.log_alertes.length ≤ 3) ∧
    (∀ (st : Entrepot) (id : String),
        (enregistrer_alerte st id).log_alertes ≠ st.log_alertes →
          qtyS st.stock id < seuil_min ∧ id ∉ st.log_alertes ∧
            st.log_alertes.length < 3 ∧
            (enregistrer_alerte st id).log_alertes = st.log_alertes ++ [id]) ∧
    (∀ (st : Entrepot) (id : String), st.log_alertes.length = 3 →
        (enregistrer_alerte st id).log_alertes = st.log_alertes) := by
  refine ⟨?_, ?_, ?_⟩
  · intro st h
    obtain ⟨h1, h2, _⟩ := reachable_inv st h
    exact ⟨h1, h2⟩
  · intro st id hne
    rw [enregistrer_log] at hne ⊢
    by_cases hc : qtyS st.stock id < seuil_min ∧ id ∉ st.log_alertes ∧
        st.log_alertes.length < 3
    · rw [if_pos hc]
      exact ⟨hc.1, hc.2.1, hc.2.2, rfl⟩
    · rw [if_neg hc] at hne
      exact absurd rfl hne
  · intro st id h3
    rw [enregistrer_log, if_neg]
    intro hc
    omega

/-- C1 witness: the invariant at the seeded initial state, a concrete
successful append, and a concrete full log dropping an alert. -/
theorem claim_C1_witness :
    (Entrepot.init.log_alertes.Nodup ∧ Entrepot.init.log_alertes.length ≤ 3) ∧
    (qtyS Entrepot.empty.stock "D4" < seuil_min ∧
      "D4" ∉ Entrepot.empty.log_alertes ∧
      Entrepot.empty.log_alertes.length < 3 ∧
      (enregistrer_alerte Entrepot.empty "D4").log_alertes =
        Entrepot.empty.log_alertes ++ ["D4"]) ∧
    (enregistrer_alerte (⟨[], ["A1", "B2", "C3"], []⟩ : Entrepot) "D4").log_alertes =
      (⟨[], ["A1", "B2", "C3"], []⟩ : Entrepot).log_alertes := by
  refine ⟨?_, ?_, ?_⟩
  · exact claim_C1.1 Entrepot.init
      (Reachable.add Entrepot.empty "A3, A3, B5, B5, C1, C1, A2, A2" Reachable.empty)
  · exact claim_C1.2.1 Entrepot.empty "D4" (by decide)
  · exact claim_C1.2.2 (⟨[], ["A1", "B2", "C3"], []⟩ : Entrepot) "D4" (by decide)

/-- C2: The alert resolution check removes a logged code from the log
when its quantity reached the threshold, leaves the log unchanged when
the logged code is still below the threshold, leaves it unchanged when
the code is not logged (regardless of quantity), the removal happens
exactly once (the code is absent afterwards, on a duplicate free log),
and ajouter_lot never adds an entry to the alert log. -/
theorem claim_C2 :
    (∀ (st : Entrepot) (id : String), id ∈ st.log_alertes →
        seuil_min ≤ qtyS st.stock id →
          (verifier_et_nettoyer_alerte st id).log_alertes =
            removeFirst st.log_alertes id) ∧
    (∀ (st : Entrepot) (id : String), id ∈ st.log_alertes →
        qtyS st.stock id < seuil_min →
          (verifier_et_nettoyer_alerte st id).log_alertes = st.log_alertes) ∧
    (∀ (st : Entrepot) (id : String), id ∉ st.log_alertes →
        (verifier_et_nettoyer_alerte st id).log_alertes = st.log_alertes) ∧
    (∀ (st : Entrepot) (id : String), st.log_alertes.Nodup →
        id ∈ st.log_alertes → seuil_min ≤ qtyS st.stock id →
          id ∉ (verifier_et_nettoyer_alerte st id).log_alertes) ∧
    (∀ (st : Entrepot) (s : String),
        List.Sublist (ajouter_lot st s).log_alertes st.log_alertes) := by
  refine ⟨?_, ?_, ?_, ?_, ?_⟩
  · intro st id h1 h2
    rw [verifier_log, if_pos ⟨h1, h2⟩]
  · intro st id h1 h2
    rw [verifier_log, if_neg]
    intro hc
    omega
  · intro st id h1
    rw [verifier_log, if_neg]
    intro hc
    exact h1 hc.1
  · intro st id hnd h1 h2
    rw [verifier_log, if_pos ⟨h1, h2⟩]
    exact not_mem_removeFirst_self st.log_alertes id hnd
  · exact ajouter_lot_log_sublist

/-- C2 witness: concrete states exercising each of the four alert
resolution cases and the no-addition property of ajouter_lot. -/
theorem claim_C2_witness :
    (verifier_et_nettoyer_alerte
        (⟨[("A1", ["A1", "A1"])], ["A1"], []⟩ : Entrepot) "A1").log_alertes =
      removeFirst ["A1"] "A1" ∧
    (verifier_et_nettoyer_alerte
        (⟨[("B2", ["B2"])], ["B2"], []⟩ : Entrepot) "B2").log_alertes = ["B2"] ∧
    (verifier_et_nettoyer_alerte
        (⟨[("C3", ["C3", "C3"])], [], []⟩ : Entrepot) "C3").log_alertes = [] ∧
    "A1" ∉ (verifier_et_nettoyer_alerte
        (⟨[("A1", ["A1", "A1"])], ["A1"], []⟩ : Entrepot) "A1").log_alertes ∧
    List.Sublist (ajouter_lot (⟨[], ["A1"], []⟩ : Entrepot) "A1").log_alertes
      ["A1"] := by
  refine ⟨?_, ?_, ?_, ?_, ?_⟩
  · exact claim_C2.1 (⟨[("A1", ["A1", "A1"])], ["A1"], []⟩ : Entrepot) "A1"
      (by decide) (by decide)
  · exact claim_C2.2.1 (⟨[("B2", ["B2"])], ["B2"], []⟩ : Entrepot) "B2"
      (by decide) (by decide)
  · exact claim_C2.2.2.1 (⟨[("C3", ["C3", "C3"])], [], []⟩ : Entrepot) "C3"
      (by decide)
  · exact claim_C2.2.2.2.1 (⟨[("A1", ["A1", "A1"])], ["A1"], []⟩ : Entrepot) "A1"
      (by decide) (by decide) (by decide)
  · exact claim_C2.2.2.2.2 (⟨[], ["A1"], []⟩ : Entrepot) "A1"

/-- C3 counterexample: the order string with a trailing comma produces the
blank token, and preparer_colis never calls enregistrer_alerte on it (the
blank token is skipped by the continue before the alert check), refuting
the claim for blank tokens. -/
theorem claim_C3_counterexample :
    "" ∈ tokensOf "A1," ∧ "" ∉ (packRun Entrepot.empty "A1,").alertes := by
  decide

/-- C3 (amended): preparer_colis calls enregistrer_alerte, in order, on
exactly the nonblank cleaned tokens of the order, after the availability
check and pop attempt, regardless of whether a unit was removed or the
item was backordered; blank tokens are skipped before the alert check. -/
theorem claim_C3_amended_thm (st : Entrepot) (chaine : String) :
    (packRun st chaine).alertes =
      (tokensOf chaine).filter (fun t => !(t == "")) := by
  unfold packRun
  rw [foldl_packStep_alertes]
  simp

/-- C4 counterexample: in the empty state the code ZZ is absent from the
stock mapping, yet running the quantity read of enregistrer_alerte on it
creates an empty queue entry for ZZ in the mapping, refuting the claim
that the quantity read has no side effect on the stock mapping. -/
theorem claim_C4_counterexample :
    lookupS Entrepot.empty.stock "ZZ" = none ∧
    lookupS (enregistrer_alerte Entrepot.empty "ZZ").stock "ZZ" = some [] := by
  decide

/-- C4 (amended): the quantity read returns the FIFO queue length (0 when
the code is unknown) and changes no quantity, no alert log entry through
the read itself, and no archive; but, performed through the defaultdict,
reading an unknown code inserts an empty queue entry for it into the
stock mapping. -/
theorem claim_C4_amended_thm :
    (∀ (st : Entrepot) (id : String), lookupS st.stock id = none →
        qtyS st.stock id = 0) ∧
    (∀ (st : Entrepot) (id : String) (v : List String),
        lookupS st.stock id = some v → qtyS st.stock id = v.length) ∧
    (∀ (st : Entrepot) (id k : String),
        qtyS (touch st.stock id) k = qtyS st.stock k) ∧
    (∀ (st : Entrepot) (id : String),
        (enregistrer_alerte st id).stock = touch st.stock id ∧
        (verifier_et_nettoyer_alerte st id).stock = touch st.stock id ∧
        (enregistrer_alerte st id).liste_colis = st.liste_colis) ∧
    (∀ (st : Entrepot) (id : String), lookupS st.stock id = none →
        lookupS (touch st.stock id) id = some []) := by
  refine ⟨?_, ?_, ?_, ?_, ?_⟩
  · intro st id h
    unfold qtyS
    rw [h]
    rfl
  · intro st id v h
    unfold qtyS
    rw [h]
    rfl
  · intro st id k
    exact qtyS_touch st.stock id k
  · intro st id
    exact ⟨enregistrer_stock st id, verifier_stock st id, enregistrer_colis st id⟩
  · intro st id h
    exact lookupS_touch_of_none st.stock id h

/-- C4 witness: the amended statement applied at the empty state and the
unknown code ZZ. -/
theorem claim_C4_witness :
    qtyS Entrepot.empty.stock "ZZ" = 0 ∧
    qtyS (⟨[("ZZ", ["ZZ"])], [], []⟩ : Entrepot).stock "ZZ" = ["ZZ"].length ∧
    qtyS (touch Entrepot.empty.stock "ZZ") "ZZ" = qtyS Entrepot.empty.stock "ZZ" ∧
    (enregistrer_alerte Entrepot.empty "ZZ").stock = touch Entrepot.empty.stock "ZZ" ∧
    lookupS (touch Entrepot.empty.stock "ZZ") "ZZ" = some [] := by
  refine ⟨?_, ?_, ?_, ?_, ?_⟩
  · exact claim_C4_amended_thm.1 Entrepot.empty "ZZ" (by decide)
  · exact claim_C4_amended_thm.2.1 (⟨[("ZZ", ["ZZ"])], [], []⟩ : Entrepot) "ZZ"
      ["ZZ"] (by decide)
  · exact claim_C4_amended_thm.2.2.1 Entrepot.empty "ZZ" "ZZ"
  · exact (claim_C4_amended_thm.2.2.2.1 Entrepot.empty "ZZ").1
  · exact claim_C4_amended_thm.2.2.2.2 Entrepot.empty "ZZ" (by decide)

/-- C5: the packed order appended to the archive is the stable descending
sort by volume of the successfully extracted items: the sort is a
permutation of the extracted items, its volumes are descending, items of
equal volume keep their extraction order (the filter at each volume is
unchanged), and packing A1,B5,C3 with all three available yields the
contents B5, C3, A1. -/
theorem claim_C5 :
    (∀ (st : Entrepot) (chaine : String),
        (packRun st chaine).contenu ≠ [] →
          (preparer_colis st chaine).liste_colis =
            st.liste_colis ++ [sortVolDesc (packRun st chaine).contenu]) ∧
    (∀ l : List Item, List.Perm (sortVolDesc l) l) ∧
    (∀ l : List Item, List.Pairwise volGE (sortVolDesc l)) ∧
    (∀ (l : List Item) (v : Int),
        (sortVolDesc l).filter (fun y => decide (y.vol = v)) =
          l.filter (fun y => decide (y.vol = v))) ∧
    (packRun (⟨[("A1", ["A1"]), ("B5", ["B5"]), ("C3", ["C3"])], [], []⟩ : Entrepot)
        "A1,B5,C3").contenu = [⟨"A1", 1⟩, ⟨"B5", 5⟩, ⟨"C3", 3⟩] ∧
    sortVolDesc [⟨"A1", 1⟩, ⟨"B5", 5⟩, ⟨"C3", 3⟩] =
      [⟨"B5", 5⟩, ⟨"C3", 3⟩, ⟨"A1", 1⟩] := by
  refine ⟨?_, sortVolDesc_perm, sortVolDesc_pairwise,
    fun l v => sortVolDesc_filter v l, ?_, ?_⟩
  · intro st chaine h
    exact (preparer_colis_archive st chaine).2 h
  · decide
  · decide

/-- C5 witness: the archive equation applied at the concrete three item
state. -/
theorem claim_C5_witness :
    (preparer_colis
        (⟨[("A1", ["A1"]), ("B5", ["B5"]), ("C3", ["C3"])], [], []⟩ : Entrepot)
        "A1,B5,C3").liste_colis =
      [] ++ [sortVolDesc
        (packRun
          (⟨[("A1", ["A1"]), ("B5", ["B5"]), ("C3", ["C3"])], [], []⟩ : Entrepot)
          "A1,B5,C3").contenu] :=
  claim_C5.1
    (⟨[("A1", ["A1"]), ("B5", ["B5"]), ("C3", ["C3"])], [], []⟩ : Entrepot)
    "A1,B5,C3" (by decide)

/-- C6: preparer_colis appends exactly one packed order to the archive
iff its contents are nonempty: with empty contents the archive is
unchanged and every nonblank token received a backorder notice, and with
nonempty contents the archive grows by exactly one record holding all
extracted items. -/
theorem claim_C6 (st : Entrepot) (chaine : String) :
    ((preparer_colis st chaine).liste_colis = st.liste_colis ↔
      (packRun st chaine).contenu = []) ∧
    ((packRun st chaine).contenu = [] →
      (packRun st chaine).ruptures =
        (tokensOf chaine).filter (fun t => !(t == ""))) ∧
    ((packRun st chaine).contenu ≠ [] →
      (preparer_colis st chaine).liste_colis.length = st.liste_colis.length + 1 ∧
      (sortVolDesc (packRun st chaine).contenu).length =
        (packRun st chaine).contenu.length) := by
  refine ⟨⟨?_, ?_⟩, ?_, ?_⟩
  · intro he
    by_contra hne
    have h2 := (preparer_colis_archive st chaine).2 hne
    rw [he] at h2
    have h3 := congrArg List.length h2
    simp at h3
  · intro h
    rw [(preparer_colis_archive st chaine).1 h, packRun_colis]
  · intro h
    have h2 := (foldl_packStep_contenu_nil (tokensOf chaine) ⟨[], st, [], []⟩ h).2
    unfold packRun
    rw [h2]
    simp
  · intro h
    constructor
    · rw [(preparer_colis_archive st chaine).2 h]
      simp
    · exact (sortVolDesc_perm _).length_eq

/-- C6 witness: a fully backordered order leaves the archive unchanged
with one backorder per token, and an available order appends exactly one
record. -/
theorem claim_C6_witness :
    (packRun Entrepot.empty "A1,B2").ruptures =
      (tokensOf "A1,B2").filter (fun t => !(t == "")) ∧
    (preparer_colis (⟨[("A1", ["A1"])], [], []⟩ : Entrepot)
        "A1").liste_colis.length =
      (⟨[("A1", ["A1"])], [], []⟩ : Entrepot).liste_colis.length + 1 := by
  refine ⟨?_, ?_⟩
  · exact (claim_C6 Entrepot.empty "A1,B2").2.1 (by decide)
  · exact ((claim_C6 (⟨[("A1", ["A1"])], [], []⟩ : Entrepot) "A1").2.2
      (by decide)).1

/-- C7 counterexample: the code A-3 passes the format check and can be
stocked; packing it parses the suffix with the signed semantics of Python
int, producing the negative volume -3, refuting the claim that the
volume is an unsigned decimal parse and always nonnegative. -/
theorem claim_C7_counterexample :
    (packRun (ajouter_lot Entrepot.empty "A-3") "A-3").contenu =
      [⟨"A-3", -3⟩] ∧ parseVol "A-3" < 0 := by
  decide

/-- C7 (amended): for every available nonblank token the item is packed
with volume int(token[1:]) under the signed semantics of Python int (so a
suffix with a minus sign yields a negative volume, e.g. A-3 gives -3);
when the parse fails (including the empty suffix of AB) the volume is 0
and the item is still processed; and when the suffix is a plain nonempty
digit run the volume is its nonnegative decimal value. -/
theorem claim_C7_amended_thm :
    (∀ (acc : PackAcc) (id : String), id ≠ "" → availB acc.ent id = true →
        (packStep acc id).contenu = acc.contenu ++ [⟨id, parseVol id⟩]) ∧
    (∀ id : String, pyInt ⟨id.data.drop 1⟩ = none → parseVol id = 0) ∧
    (∀ ds : List Char, ds ≠ [] → (∀ c ∈ ds, c.isDigit = true) →
        pyInt ⟨ds⟩ = some ((decVal ds : Nat) : Int) ∧
          0 ≤ ((decVal ds : Nat) : Int)) ∧
    parseVol "A-3" = -3 ∧ parseVol "AB" = 0 := by
  refine ⟨?_, ?_, ?_, by decide, by decide⟩
  · intro acc id hid ha
    rw [packStep_eq, if_neg hid, if_pos ha]
  · intro id h
    unfold parseVol
    rw [h]
    rfl
  · intro ds hne h
    exact ⟨pyInt_all_digits ds hne h, Int.ofNat_nonneg _⟩

/-- C7 witness: the amended statement applied to the stocked token AB
(failing parse, volume 0, still packed) and to the digit run 10. -/
theorem claim_C7_witness :
    (packStep (⟨[], ⟨[("AB", ["AB"])], [], []⟩, [], []⟩ : PackAcc) "AB").contenu =
      [] ++ [⟨"AB", parseVol "AB"⟩] ∧
    parseVol "AB" = 0 ∧
    pyInt ⟨['1', '0']⟩ = some ((decVal ['1', '0'] : Nat) : Int) := by
  refine ⟨?_, ?_, ?_⟩
  · exact claim_C7_amended_thm.1
      (⟨[], ⟨[("AB", ["AB"])], [], []⟩, [], []⟩ : PackAcc) "AB"
      (by decide) (by decide)
  · exact claim_C7_amended_thm.2.1 "AB" (by decide)
  · exact (claim_C7_amended_thm.2.2.1 ['1', '0'] (by decide) (by decide)).1

/-- C8: processing one well formed token through ajouter_lot increases
that code quantity by exactly one; a token failing the format check is
skipped, leaves the state unchanged, stores no unit, and the remaining
tokens of the batch are still processed; the concrete malformed code 9X
is rejected and absent from the ledger. -/
theorem claim_C8 :
    (∀ (st : Entrepot) (id : String), formatOk id = true →
        qtyS (addToken st id).stock id = qtyS st.stock id + 1) ∧
    (∀ (st : Entrepot) (id : String), tokensOf id = [id] → formatOk id = true →
        qtyS (ajouter_lot st id).stock id = qtyS st.stock id + 1) ∧
    (∀ (st : Entrepot) (id : String), ¬ formatOk id = true → addToken st id = st) ∧
    (∀ (st : Entrepot) (id : String) (ts : List String), ¬ formatOk id = true →
        List.foldl addToken st (id :: ts) = List.foldl addToken st ts) ∧
    ¬ formatOk "9X" = true ∧
    lookupS (ajouter_lot Entrepot.empty "9X").stock "9X" = none := by
  refine ⟨?_, ?_, ?_, ?_, by decide, by decide⟩
  · intro st id h
    exact addToken_qty_self st id h
  · intro st id ht h
    unfold ajouter_lot
    rw [ht]
    simp only [List.foldl_cons, List.foldl_nil]
    exact addToken_qty_self st id h
  · intro st id h
    exact addToken_not_ok st id h
  · intro st id ts h
    rw [List.foldl_cons, addToken_not_ok st id h]

/-- C8 witness: one addition of A1 to the empty ledger, and skipping of
the malformed token 9X. -/
theorem claim_C8_witness :
    qtyS (ajouter_lot Entrepot.empty "A1").stock "A1" =
      qtyS Entrepot.empty.stock "A1" + 1 ∧
    addToken Entrepot.empty "9X" = Entrepot.empty ∧
    List.foldl addToken Entrepot.empty ["9X", "A1"] =
      List.foldl addToken Entrepot.empty ["A1"] := by
  refine ⟨?_, ?_, ?_⟩
  · exact claim_C8.2.1 Entrepot.empty "A1" (by decide) (by decide)
  · exact claim_C8.2.2.1 Entrepot.empty "9X" (by decide)
  · exact claim_C8.2.2.2.1 Entrepot.empty "9X" ["A1"] (by decide)

/-- C9: the core operations are total: the exception sensitive models of
ajouter_lot and preparer_colis (in which deque.popleft, list.remove and
int can fail) always return some of the plain result, so no input makes
them raise, and the two display renders are defined for every state, one
line per stock entry and one render per archived order. -/
theorem claim_C9 :
    (∀ (st : Entrepot) (chaine : String),
        ajouter_lotE st chaine = some (ajouter_lot st chaine)) ∧
    (∀ (st : Entrepot) (chaine : String),
        preparer_colisE st chaine = some (preparer_colis st chaine)) ∧
    (∀ st : Entrepot, (afficher_inventaire st).length = st.stock.length) ∧
    (∀ st : Entrepot, (afficher_colis st).length = st.liste_colis.length) :=
  ⟨ajouter_lotE_eq, preparer_colisE_eq,
    afficher_inventaire_length, afficher_colis_length⟩

/-- C10: in every reachable state, every code in the alert log has
quantity strictly below the threshold 2, not only at insertion time. -/
theorem claim_C10 (st : Entrepot) (h : Reachable st) :
    ∀ id ∈ st.log_alertes, qtyS st.stock id < seuil_min :=
  (reachable_inv st h).2.2

/-- C10 witness: after packing C1,C1,C1 from the seeded initial state the
code C1 is in the alert log, and the theorem yields its quantity below
the threshold. -/
theorem claim_C10_witness :
    qtyS (preparer_colis Entrepot.init "C1,C1,C1").stock "C1" < seuil_min := by
  have h0 : Reachable Entrepot.init :=
    Reachable.add Entrepot.empty "A3, A3, B5, B5, C1, C1, A2, A2" Reachable.empty
  exact claim_C10 (preparer_colis Entrepot.init "C1,C1,C1")
    (Reachable.pack Entrepot.init "C1,C1,C1" h0) "C1" (by decide)
